import Mathlib

/- Verification of the tsukiuta-ai haiku core: mora counting (src/syllable_counter.py),
   ruby parsing and ruby-aware counting, haiku classification and confidence scoring
   (scripts/haiku_data_collector.py), embedded over List Char. -/

/-- Modelled from the spec: the conversion table of mojimoji.han_to_zen, an external
dependency whose source is not in the repository. Per the spec, normalization
"converts half-width kana and digits to full-width forms; otherwise passes characters
through unchanged". Keys are the half-width katakana block U+FF61..U+FF9F and the
ASCII digits; values are the full-width equivalents. -/
def han_to_zen_table : List (Char × Char) :=
  [('｡', '。'), ('｢', '「'), ('｣', '」'), ('､', '、'), ('･', '・'), ('ｦ', 'ヲ'),
   ('ｧ', 'ァ'), ('ｨ', 'ィ'), ('ｩ', 'ゥ'), ('ｪ', 'ェ'), ('ｫ', 'ォ'),
   ('ｬ', 'ャ'), ('ｭ', 'ュ'), ('ｮ', 'ョ'), ('ｯ', 'ッ'), ('ｰ', 'ー'),
   ('ｱ', 'ア'), ('ｲ', 'イ'), ('ｳ', 'ウ'), ('ｴ', 'エ'), ('ｵ', 'オ'),
   ('ｶ', 'カ'), ('ｷ', 'キ'), ('ｸ', 'ク'), ('ｹ', 'ケ'), ('ｺ', 'コ'),
   ('ｻ', 'サ'), ('ｼ', 'シ'), ('ｽ', 'ス'), ('ｾ', 'セ'), ('ｿ', 'ソ'),
   ('ﾀ', 'タ'), ('ﾁ', 'チ'), ('ﾂ', 'ツ'), ('ﾃ', 'テ'), ('ﾄ', 'ト'),
   ('ﾅ', 'ナ'), ('ﾆ', 'ニ'), ('ﾇ', 'ヌ'), ('ﾈ', 'ネ'), ('ﾉ', 'ノ'),
   ('ﾊ', 'ハ'), ('ﾋ', 'ヒ'), ('ﾌ', 'フ'), ('ﾍ', 'ヘ'), ('ﾎ', 'ホ'),
   ('ﾏ', 'マ'), ('ﾐ', 'ミ'), ('ﾑ', 'ム'), ('ﾒ', 'メ'), ('ﾓ', 'モ'),
   ('ﾔ', 'ヤ'), ('ﾕ', 'ユ'), ('ﾖ', 'ヨ'),
   ('ﾗ', 'ラ'), ('ﾘ', 'リ'), ('ﾙ', 'ル'), ('ﾚ', 'レ'), ('ﾛ', 'ロ'),
   ('ﾜ', 'ワ'), ('ﾝ', 'ン'), ('ﾞ', '゛'), ('ﾟ', '゜'),
   ('0', '０'), ('1', '１'), ('2', '２'), ('3', '３'), ('4', '４'),
   ('5', '５'), ('6', '６'), ('7', '７'), ('8', '８'), ('9', '９')]

/-- Modelled from the spec: mojimoji.han_to_zen on one character. -/
def han_to_zen_char (c : Char) : Char :=
  (han_to_zen_table.lookup c).getD c

/-- Modelled from the spec: mojimoji.han_to_zen, the normalization step of
SyllableCounter.count_mora (text = mojimoji.han_to_zen(text)). -/
def han_to_zen (l : List Char) : List Char := l.map han_to_zen_char

/-- SyllableCounter.youon: the small-vowel kana counted together with the
preceding character. -/
def youon : List Char := ['ゃ', 'ゅ', 'ょ', 'ャ', 'ュ', 'ョ']

/-- SyllableCounter.count_mora: normalize to full width, count characters, then
subtract one for every occurrence of each youon character. -/
def count_mora (text : List Char) : ℕ :=
  let t := han_to_zen text
  t.length - (youon.map (fun y => t.count y)).sum

/-- The space stripping at the top of SyllableCounter.split_575:
text.replace(' ', '').replace('　', ''). -/
def strip_spaces (l : List Char) : List Char :=
  (l.filter (fun c => c != ' ')).filter (fun c => c != '　')

/-- Python range(a, b) as a list. -/
def py_range (a b : ℕ) : List ℕ := List.range' a (b - a)

/-- The inner loop of SyllableCounter.split_575: for j in range(i+1, len(text)),
return the first split whose middle part counts 7 and whose tail counts 5. -/
def split_575_inner (t : List Char) (i : ℕ) :
    Option (List Char × List Char × List Char) :=
  (py_range (i + 1) t.length).findSome? fun j =>
    if count_mora ((t.drop i).take (j - i)) = 7 ∧ count_mora (t.drop j) = 5 then
      some (t.take i, (t.drop i).take (j - i), t.drop j)
    else none

/-- The double loop of SyllableCounter.split_575: for i in range(1, len(text)),
enter the inner loop when the prefix counts 5. -/
def split_575_search (t : List Char) : Option (List Char × List Char × List Char) :=
  (py_range 1 t.length).findSome? fun i =>
    if count_mora (t.take i) = 5 then split_575_inner t i else none

/-- SyllableCounter.split_575: strip spaces, reject unless the total count is 17,
then search for the first 5-7-5 split. -/
def split_575 (text : List Char) : Option (List Char × List Char × List Char) :=
  let t := strip_spaces text
  if count_mora t ≠ 17 then none else split_575_search t

/-- The 5-7-5 condition on a boundary pair (i, j) of t, as tested by split_575. -/
def valid_575 (t : List Char) (i j : ℕ) : Prop :=
  count_mora (t.take i) = 5 ∧ count_mora ((t.drop i).take (j - i)) = 7 ∧
    count_mora (t.drop j) = 5

instance (t : List Char) (i j : ℕ) : Decidable (valid_575 t i j) := by
  unfold valid_575; infer_instance

/-- The character class of the regex [一-龥々] used for ruby surfaces and for the
kanji estimate in count_mora_with_ruby. -/
def is_cjk (c : Char) : Bool :=
  decide ((0x4E00 ≤ c.toNat ∧ c.toNat ≤ 0x9FA5) ∨ c.toNat = 0x3005)

/-- The character class of the regex [ぁ-ん] used for ruby readings. -/
def is_hira (c : Char) : Bool :=
  decide (0x3041 ≤ c.toNat ∧ c.toNat ≤ 0x3093)

/-- The character class of the regex [ぁ-んァ-ン] used in count_mora_with_ruby and
in _count_mora_kana. -/
def is_kana_range (c : Char) : Bool :=
  decide ((0x3041 ≤ c.toNat ∧ c.toNat ≤ 0x3093) ∨ (0x30A1 ≤ c.toNat ∧ c.toNat ≤ 0x30F3))

/-- One attempt of the regex ([一-龥々]+)《([ぁ-ん]+)》 at the start of l: a maximal
nonempty run of CJK ideographs, the opening bracket, a maximal nonempty run of
hiragana, the closing bracket. Greedy matching of the character-class runs cannot
backtrack here, since a shorter run would have to be followed by a character of the
same class, not by a bracket. -/
def try_match (l : List Char) : Option (List Char × List Char × List Char) :=
  let k := l.takeWhile is_cjk
  match l.dropWhile is_cjk with
  | '《' :: rest1 =>
    let r := rest1.takeWhile is_hira
    match rest1.dropWhile is_hira with
    | '》' :: rest2 => if k.isEmpty || r.isEmpty then none else some (k, r, rest2)
    | _ => none
  | _ => none

/-- The pending pre-text flushed as an unannotated span by
AdvancedHaikuExtractor.extract_text_with_ruby (the `if pre_text` / trailing-part
appends). -/
def flush_pending (p : List Char) : List (List Char × List Char) :=
  if p.isEmpty then [] else [(p, p)]

/-- The finditer scan of AdvancedHaikuExtractor.extract_text_with_ruby. The fuel
argument bounds the recursion; it never runs out because every step consumes at
least one character and the initial fuel is the input length. -/
def extract_aux : ℕ → List Char → List Char → List (List Char × List Char)
  | _, pending, [] => flush_pending pending
  | 0, pending, _ :: _ => flush_pending pending
  | Nat.succ fuel, pending, c :: rest =>
    match try_match (c :: rest) with
    | some (k, r, rest2) => flush_pending pending ++ (k, r) :: extract_aux fuel [] rest2
    | none => extract_aux fuel (pending ++ [c]) rest

/-- AdvancedHaikuExtractor.extract_text_with_ruby: the ordered list of
(surface, reading) spans; text outside matches becomes spans with surface =
reading. -/
def extract_text_with_ruby (text : List Char) : List (List Char × List Char) :=
  extract_aux text.length [] text

/-- Does the ruby regex match anywhere in l (at any start position)? -/
def has_ruby_match (l : List Char) : Bool :=
  l.tails.any fun s => (try_match s).isSome

/-- Surface of a span, with the bracket delimiters and reading re-inserted for an
annotated span. Concatenated over a span list this rebuilds the original markup. -/
def span_markup (p : List Char × List Char) : List Char :=
  if p.1 = p.2 then p.1 else p.1 ++ '《' :: (p.2 ++ ['》'])

/-- Concatenation of span surfaces with annotation markup re-inserted. -/
def reconstruct_full (spans : List (List Char × List Char)) : List Char :=
  (spans.map span_markup).flatten

/-- The punctuation/space stripping of count_mora_with_ruby:
replace('、', '').replace('。', '').replace(' ', ''). -/
def clean_reading (l : List Char) : List Char :=
  ((l.filter (fun c => c != '、')).filter (fun c => c != '。')).filter (fun c => c != ' ')

/-- The sokuon/hatsuon characters of _count_mora_kana ('っッんン'). -/
def sokuon_hatsuon : List Char := ['っ', 'ッ', 'ん', 'ン']

/-- The positional walk of AdvancedHaikuExtractor._count_mora_kana. The Bool flag
records whether the walk is past index 0 (the i > 0 test); a kana followed by a
youon consumes both characters for one mora. -/
def count_mora_kana_go : Bool → List Char → ℕ
  | _, [] => 0
  | not_first, [c] =>
    if c ∈ youon ∧ not_first = true then 0
    else if c ∈ sokuon_hatsuon then 1
    else if c = 'ー' then 1
    else if is_kana_range c then 1
    else 0
  | not_first, c :: d :: rest2 =>
    if c ∈ youon ∧ not_first = true then count_mora_kana_go true (d :: rest2)
    else if c ∈ sokuon_hatsuon then 1 + count_mora_kana_go true (d :: rest2)
    else if c = 'ー' then 1 + count_mora_kana_go true (d :: rest2)
    else if is_kana_range c then
      if d ∈ youon then 1 + count_mora_kana_go true rest2
      else 1 + count_mora_kana_go true (d :: rest2)
    else count_mora_kana_go true (d :: rest2)

/-- AdvancedHaikuExtractor._count_mora_kana. -/
def count_mora_kana (l : List Char) : ℕ := count_mora_kana_go false l

/-- AdvancedHaikuExtractor.count_mora_with_ruby: annotated spans count their
cleaned reading with the positional kana rule; unannotated spans count character
by character, applying _count_mora_kana to each single kana character and a fixed
2 to each CJK ideograph. -/
def count_mora_with_ruby (pairs : List (List Char × List Char)) : ℕ :=
  pairs.foldl (fun acc p =>
    if p.1 ≠ p.2 then acc + count_mora_kana (clean_reading p.2)
    else (clean_reading p.1).foldl (fun a c =>
      if is_kana_range c then a + count_mora_kana [c]
      else if is_cjk c then a + 2
      else a) acc) 0

/-- The per-character estimate actually implemented by the unannotated branch of
count_mora_with_ruby: 1 per kana-range character, 2 per CJK ideograph, 0 otherwise. -/
def char_mora_estimate (c : Char) : ℕ :=
  if is_kana_range c then 1 else if is_cjk c then 2 else 0

/-- The contribution that claim C1 ascribes to an unannotated span: the positional
kana-mora rule applied to the span's kana characters (including the long-vowel
mark, which the rule counts as 1), plus 2 per CJK ideograph, 0 otherwise. -/
def c1_claim_contribution (s : List Char) : ℕ :=
  count_mora_kana (s.filter (fun c => is_kana_range c || c == 'ー')) +
    2 * (s.filter is_cjk).length

/-- AdvancedHaikuExtractor.kireji: the cutting particles. -/
def kireji : List (List Char) :=
  [("や".toList), ("かな".toList), ("けり".toList), ("よ".toList), ("ぞ".toList),
   ("か".toList), ("らん".toList), ("し".toList), ("つ".toList), ("ぬ".toList),
   ("へ".toList), ("れ".toList), ("なり".toList)]

/-- AdvancedHaikuExtractor.kigo: the seasonal-word table, in the source's
insertion order spring, summer, autumn, winter. -/
def kigo : List (List Char × List (List Char)) :=
  [(("春".toList),
    [("春".toList), ("桜".toList), ("梅".toList), ("鶯".toList), ("霞".toList),
     ("陽炎".toList), ("蝶".toList), ("菜の花".toList), ("雛".toList), ("彼岸".toList)]),
   (("夏".toList),
    [("夏".toList), ("蝉".toList), ("蛍".toList), ("向日葵".toList), ("雷".toList),
     ("夕立".toList), ("梅雨".toList), ("青葉".toList), ("汗".toList), ("蚊".toList)]),
   (("秋".toList),
    [("秋".toList), ("月".toList), ("紅葉".toList), ("虫".toList), ("露".toList),
     ("霧".toList), ("稲".toList), ("萩".toList), ("芒".toList), ("栗".toList)]),
   (("冬".toList),
    [("冬".toList), ("雪".toList), ("霜".toList), ("氷".toList), ("寒".toList),
     ("炬燵".toList), ("餅".toList), ("年の瀬".toList), ("枯".toList), ("冴".toList)])]

/-- Substring containment (the Python `needle in haystack`, re.search of a literal). -/
def contains_sub (needle hay : List Char) : Bool :=
  hay.tails.any fun s => needle.isPrefixOf s

/-- The character class [0-9０-９]. -/
def is_digit_char (c : Char) : Bool :=
  decide ((0x30 ≤ c.toNat ∧ c.toNat ≤ 0x39) ∨ (0xFF10 ≤ c.toNat ∧ c.toNat ≤ 0xFF19))

/-- The kanji numerals of the pattern 第[一二三四五六七八九十]+. -/
def kanji_digits : List Char := ['一', '二', '三', '四', '五', '六', '七', '八', '九', '十']

/-- Exclusion pattern [。、]が[。、] (re.search). -/
def excl_ga (l : List Char) : Bool :=
  l.tails.any fun s =>
    match s with
    | x :: 'が' :: y :: _ =>
      (x == '。' || x == '、') && (y == '。' || y == '、')
    | _ => false

/-- Exclusion pattern です|ます|である|だった. -/
def excl_keigo (l : List Char) : Bool :=
  contains_sub ("です".toList) l || contains_sub ("ます".toList) l ||
    contains_sub ("である".toList) l || contains_sub ("だった".toList) l

/-- Exclusion pattern [0-9０-９]{2,}: a search succeeds iff two consecutive digit
characters occur somewhere. -/
def excl_digits (l : List Char) : Bool :=
  l.tails.any fun s =>
    match s with
    | x :: y :: _ => is_digit_char x && is_digit_char y
    | _ => false

/-- Exclusion pattern 第[一二三四五六七八九十]+: a search succeeds iff 第 is
immediately followed by a kanji numeral somewhere. -/
def excl_chapter (l : List Char) : Bool :=
  l.tails.any fun s =>
    match s with
    | '第' :: y :: _ => kanji_digits.contains y
    | _ => false

/-- Exclusion pattern ^[「『]. -/
def excl_quote (l : List Char) : Bool :=
  match l with
  | '「' :: _ => true
  | '『' :: _ => true
  | _ => false

/-- Exclusion pattern という|ような|などの. -/
def excl_setsumei (l : List Char) : Bool :=
  contains_sub ("という".toList) l || contains_sub ("ような".toList) l ||
    contains_sub ("などの".toList) l

/-- The exclusion-pattern loop of is_haiku_structure. -/
def matches_exclusion (l : List Char) : Bool :=
  excl_ga l || excl_keigo l || excl_digits l || excl_chapter l || excl_quote l ||
    excl_setsumei l

/-- The whitespace class of the pattern [　\s] under Python's Unicode \s. -/
def is_py_space (c : Char) : Bool :=
  decide ((0x9 ≤ c.toNat ∧ c.toNat ≤ 0xD) ∨ (0x1C ≤ c.toNat ∧ c.toNat ≤ 0x1F) ∨
    c.toNat = 0x20 ∨ c.toNat = 0x85 ∨ c.toNat = 0xA0 ∨ c.toNat = 0x1680 ∨
    (0x2000 ≤ c.toNat ∧ c.toNat ≤ 0x200A) ∨ c.toNat = 0x2028 ∨ c.toNat = 0x2029 ∨
    c.toNat = 0x202F ∨ c.toNat = 0x205F ∨ c.toNat = 0x3000)

/-- re.split(r'[　\s]', text): every whitespace character is a separator, so
consecutive separators produce empty parts. -/
def re_split_ws (l : List Char) : List (List Char) :=
  l.foldr (fun c acc =>
    if is_py_space c then [] :: acc
    else
      match acc with
      | h :: t => (c :: h) :: t
      | [] => [[c]]) [[]]

/-- The kireji test of is_haiku_structure: text ends with the particle, or the
particle followed by an ideographic or ASCII space occurs anywhere. -/
def has_kireji (l : List Char) : Bool :=
  kireji.any fun k =>
    k.isSuffixOf l || contains_sub (k ++ ['　']) l || contains_sub (k ++ [' ']) l

/-- The kigo test of is_haiku_structure: any seasonal word of any season occurs. -/
def has_kigo (l : List Char) : Bool :=
  kigo.any fun p => p.2.any fun w => contains_sub w l

/-- The terminal inflection characters of the pattern [きくしすむる]$. -/
def terminal_chars : List Char := ['き', 'く', 'し', 'す', 'む', 'る']

/-- re.search(r'[きくしすむる]$', text): the anchor $ also matches just before a
single trailing newline. -/
def ends_terminal (l : List Char) : Bool :=
  let l' := if l.getLast? = some '\n' then l.dropLast else l
  match l'.getLast? with
  | some c => terminal_chars.contains c
  | none => false

/-- AdvancedHaikuExtractor.is_haiku_structure. -/
def is_haiku_structure (text : List Char) (mora_count : ℤ) : Bool :=
  if ¬ (15 ≤ mora_count ∧ mora_count ≤ 19) then false
  else if matches_exclusion text then false
  else if (re_split_ws text).length = 3 then true
  else if has_kireji text || has_kigo text then true
  else if ends_terminal text then true
  else decide (mora_count = 17)

/-- The acceptance condition as stated by claim C4: exactly 3 non-empty whitespace
parts; or text ends with a cutting particle; or a seasonal word occurs; or the last
character is a terminal inflection character; or the count is exactly 17. -/
def c4_claim_rhs (text : List Char) (mora_count : ℤ) : Bool :=
  decide (15 ≤ mora_count ∧ mora_count ≤ 19) && !(matches_exclusion text) &&
    (decide (((re_split_ws text).filter (fun p => !p.isEmpty)).length = 3) ||
     kireji.any (fun k => k.isSuffixOf text) ||
     has_kigo text ||
     (match text.getLast? with
      | some c => terminal_chars.contains c
      | none => false) ||
     decide (mora_count = 17))

/-- AozoraHaikuScraperAdvanced.detect_season: first season in table order with a
seasonal word occurring in the text. -/
def detect_season (text : List Char) : Option (List Char) :=
  kigo.findSome? fun p =>
    if p.2.any (fun w => contains_sub w text) then some p.1 else none

/-- The kireji test of calculate_confidence: endswith only. -/
def ends_with_kireji (text : List Char) : Bool :=
  kireji.any fun k => k.isSuffixOf text

/-- AozoraHaikuScraperAdvanced.calculate_confidence, with Python floats modelled as
exact rationals (the literals 0.5, 0.3, 0.1, 1.0 and their sums here stay within
regions where double arithmetic is faithful to these comparisons). -/
def calculate_confidence (text : List Char) (mora_count : ℤ) : ℚ :=
  let confidence : ℚ := 1 / 2
  let confidence :=
    if mora_count = 17 then confidence + 3 / 10
    else if 16 ≤ mora_count ∧ mora_count ≤ 18 then confidence + 1 / 10
    else confidence
  let confidence := if ends_with_kireji text then confidence + 1 / 10 else confidence
  let confidence := if (detect_season text).isSome then confidence + 1 / 10 else confidence
  min confidence 1

/-- The half-width kana block U+FF61..U+FF9F, as a list. -/
def halfwidth_kana : List Char := (han_to_zen_table.take 63).map Prod.fst

/-- The half-width (ASCII) digits. -/
def halfwidth_digits : List Char :=
  ['0', '1', '2', '3', '4', '5', '6', '7', '8', '9']

/-- Full-width character ranges: CJK symbols plus kana (U+3000..U+30FF) and
full-width digits (U+FF10..U+FF19). -/
def is_fullwidth (c : Char) : Prop :=
  (0x3000 ≤ c.toNat ∧ c.toNat ≤ 0x30FF) ∨ (0xFF10 ≤ c.toNat ∧ c.toNat ≤ 0xFF19)

instance (c : Char) : Decidable (is_fullwidth c) := by
  unfold is_fullwidth; infer_instance

/-- Removal of every Python-whitespace character (what a literal reading of
"whitespace-stripped" demands). -/
def strip_all_ws (l : List Char) : List Char := l.filter fun c => !(is_py_space c)

/- Helper lemmas -/

theorem mem_table_of_lookup_eq_some {c d : Char}
    (h : han_to_zen_table.lookup c = some d) : (c, d) ∈ han_to_zen_table := by
  obtain ⟨l₁, l₂, he, -⟩ := List.lookup_eq_some_iff.mp h
  rw [he]
  exact List.mem_append.mpr (Or.inr (List.mem_cons_self _ _))

theorem table_snd_not_key :
    ∀ p ∈ han_to_zen_table, han_to_zen_table.lookup p.2 = none := by decide

theorem han_to_zen_char_idem (c : Char) :
    han_to_zen_char (han_to_zen_char c) = han_to_zen_char c := by
  unfold han_to_zen_char
  cases h : han_to_zen_table.lookup c with
  | none => simp only [Option.getD_none]; rw [h]; rfl
  | some d =>
    have hd := table_snd_not_key (c, d) (mem_table_of_lookup_eq_some h)
    simp only [h, Option.getD_some] at hd ⊢
    rw [hd]
    rfl

/-- C9: the normalization step used by count_mora is idempotent:
normalize(normalize(s)) == normalize(s) for every string s. -/
theorem han_to_zen_idempotent (s : List Char) :
    han_to_zen (han_to_zen s) = han_to_zen s := by
  unfold han_to_zen
  rw [List.map_map]
  exact List.map_congr_left fun c _ => han_to_zen_char_idem c

theorem table_keys_split :
    ∀ p ∈ han_to_zen_table, p.1 ∈ halfwidth_kana ∨ p.1 ∈ halfwidth_digits := by decide

theorem lookup_eq_none_of_not_key {c : Char} {l : List (Char × Char)}
    (h : ∀ p ∈ l, p.1 ≠ c) : l.lookup c = none := by
  rw [List.lookup_eq_none_iff]
  intro p hp
  exact bne_iff_ne.mpr fun he => h p hp he.symm

/-- C8: the normalization step used by count_mora is per-character; it sends each
half-width kana and half-width digit to a distinct full-width character, and passes
every other character through unchanged. -/
theorem han_to_zen_charwise :
    (∀ s : List Char, han_to_zen s = s.map han_to_zen_char) ∧
    (∀ c : Char, c ∉ halfwidth_kana → c ∉ halfwidth_digits → han_to_zen_char c = c) ∧
    (∀ c ∈ halfwidth_kana, is_fullwidth (han_to_zen_char c) ∧ han_to_zen_char c ≠ c) ∧
    (∀ c ∈ halfwidth_digits, is_fullwidth (han_to_zen_char c) ∧ han_to_zen_char c ≠ c) := by
  refine ⟨fun s => rfl, ?_, by decide, by decide⟩
  intro c h1 h2
  unfold han_to_zen_char
  rw [lookup_eq_none_of_not_key]
  · rfl
  · intro p hp he
    rcases table_keys_split p hp with h | h
    · exact h1 (he ▸ h)
    · exact h2 (he ▸ h)

/-- C8 witness: a pass-through character and a converted half-width kana. -/
theorem han_to_zen_charwise_witness :
    han_to_zen_char 'あ' = 'あ' ∧ is_fullwidth (han_to_zen_char 'ｱ') :=
  ⟨han_to_zen_charwise.2.1 'あ' (by decide) (by decide),
   (han_to_zen_charwise.2.2.1 'ｱ' (by decide)).1⟩

/-- C2 amended: split_575 is absent whenever the mora count of the
space-stripped text differs from 17 (the fast-reject guard counts the text after
removing ASCII and ideographic spaces, not the original text). -/
theorem split_575_eq_none_of_count_ne (text : List Char)
    (h : count_mora (strip_spaces text) ≠ 17) : split_575 text = none := by
  unfold split_575
  simp only [h, if_true]
  exact if_pos h

/-- C2 witness: a one-character text. -/
theorem split_575_eq_none_witness :
    count_mora (strip_spaces ['あ']) ≠ 17 ∧ split_575 ['あ'] = none :=
  ⟨by decide, split_575_eq_none_of_count_ne ['あ'] (by decide)⟩

/-- C2 counterexample: seventeen kana followed by a space. The original text counts
18 mora, yet split_575 succeeds, because the guard tests the stripped text. -/
theorem split_575_guard_counterexample :
    count_mora ("あああああああああああああああああ ".toList) ≠ 17 ∧
    split_575 ("あああああああああああああああああ ".toList) ≠ none := by decide

theorem strip_spaces_eq_nil {s : List Char}
    (hs : ∀ c ∈ s, c = ' ' ∨ c = '　') : strip_spaces s = [] := by
  unfold strip_spaces
  rw [List.filter_eq_nil_iff]
  intro a ha
  have ha2 := List.mem_filter.mp ha
  rcases hs a ha2.1 with rfl | rfl
  · exact absurd ha2.2 (by decide)
  · decide

/-- C5 amended: for the empty input, count_mora is 0, split_575 is absent and
classification rejects; for whitespace-only input made of ASCII or ideographic
spaces, split_575 is still absent, but count_mora equals the number of characters
(each space counts one), not 0. -/
theorem degenerate_inputs :
    count_mora [] = 0 ∧ split_575 [] = none ∧ is_haiku_structure [] 0 = false ∧
    ∀ s : List Char, (∀ c ∈ s, c = ' ' ∨ c = '　') →
      count_mora s = s.length ∧ split_575 s = none := by
  refine ⟨by decide, by decide, by decide, fun s hs => ⟨?_, ?_⟩⟩
  · have hmap : han_to_zen s = s := by
      unfold han_to_zen
      have hcg : s.map han_to_zen_char = s.map id := by
        apply List.map_congr_left
        intro c hc
        rcases hs c hc with rfl | rfl <;> decide
      rw [hcg, List.map_id]
    simp only [count_mora, hmap]
    have hy : ∀ y ∈ youon, s.count y = 0 := by
      intro y hy
      rw [List.count_eq_zero]
      intro hmem
      rcases hs y hmem with rfl | rfl <;> revert hy <;> decide
    have : youon.map (fun y => s.count y) = [0, 0, 0, 0, 0, 0] := by
      have h1 := hy 'ゃ' (by decide)
      have h2 := hy 'ゅ' (by decide)
      have h3 := hy 'ょ' (by decide)
      have h4 := hy 'ャ' (by decide)
      have h5 := hy 'ュ' (by decide)
      have h6 := hy 'ョ' (by decide)
      simp [youon, h1, h2, h3, h4, h5, h6]
    rw [this]
    simp
  · apply split_575_eq_none_of_count_ne
    rw [strip_spaces_eq_nil hs]
    decide

/-- C5 witness: two ASCII spaces. -/
theorem degenerate_inputs_witness :
    count_mora [' ', ' '] = ([' ', ' '] : List Char).length ∧
      split_575 [' ', ' '] = none :=
  degenerate_inputs.2.2.2 [' ', ' '] (by decide)

/-- C5 counterexample: a single space is whitespace-only text, yet its mora count
is 1, not 0 (each space character counts one unit). -/
theorem count_mora_space_counterexample : count_mora [' '] ≠ 0 := by decide

theorem range'_findSome?_eq_some {β : Type} {f : ℕ → Option β} {r : β} :
    ∀ {n s : ℕ}, (List.range' s n).findSome? f = some r →
      ∃ m, s ≤ m ∧ m < s + n ∧ f m = some r ∧ ∀ k, s ≤ k → k < m → f k = none := by
  intro n
  induction n with
  | zero => intro s h; simp at h
  | succ n ih =>
    intro s h
    rw [List.range'_succ, List.findSome?_cons] at h
    cases hf : f s with
    | some v =>
      rw [hf] at h
      refine ⟨s, Nat.le_refl s, by omega, ?_, fun k hk1 hk2 => absurd hk1 (by omega)⟩
      rw [hf]
      exact h
    | none =>
      rw [hf] at h
      have h2 : (List.range' (s + 1) n 1).findSome? f = some r := h
      obtain ⟨m, hm1, hm2, hm3, hmin⟩ := ih h2
      refine ⟨m, by omega, by omega, hm3, fun k hk1 hk2 => ?_⟩
      rcases Nat.eq_or_lt_of_le hk1 with rfl | hlt
      · exact hf
      · exact hmin k hlt hk2

theorem range'_findSome?_eq_none {β : Type} {f : ℕ → Option β} :
    ∀ {n s : ℕ}, (List.range' s n).findSome? f = none →
      ∀ k, s ≤ k → k < s + n → f k = none := by
  intro n s h k hk1 hk2
  have := List.findSome?_eq_none_iff.mp h k
  exact this (List.mem_range'_1.mpr ⟨hk1, hk2⟩)

theorem py_range_findSome?_eq_some {β : Type} {f : ℕ → Option β} {r : β} {a b : ℕ}
    (h : (py_range a b).findSome? f = some r) :
    ∃ m, a ≤ m ∧ m < b ∧ f m = some r ∧ ∀ k, a ≤ k → k < m → f k = none := by
  obtain ⟨m, hm1, hm2, hm3, hmin⟩ := range'_findSome?_eq_some (n := b - a) (s := a) h
  exact ⟨m, hm1, by omega, hm3, hmin⟩

theorem py_range_findSome?_eq_none {β : Type} {f : ℕ → Option β} {a b : ℕ}
    (h : (py_range a b).findSome? f = none) :
    ∀ k, a ≤ k → k < b → f k = none := by
  intro k hk1 hk2
  exact range'_findSome?_eq_none (n := b - a) (s := a) h k hk1 (by omega)

theorem split_575_inner_eq_some {t : List Char} {i : ℕ}
    {a b c : List Char} (h : split_575_inner t i = some (a, b, c)) :
    ∃ j, i + 1 ≤ j ∧ j < t.length ∧
      count_mora ((t.drop i).take (j - i)) = 7 ∧ count_mora (t.drop j) = 5 ∧
      a = t.take i ∧ b = (t.drop i).take (j - i) ∧ c = t.drop j ∧
      ∀ k, i + 1 ≤ k → k < j →
        ¬ (count_mora ((t.drop i).take (k - i)) = 7 ∧ count_mora (t.drop k) = 5) := by
  unfold split_575_inner at h
  obtain ⟨j, hj1, hj2, hj3, hjmin⟩ := py_range_findSome?_eq_some h
  refine ⟨j, hj1, hj2, ?_⟩
  by_cases hc : count_mora ((t.drop i).take (j - i)) = 7 ∧ count_mora (t.drop j) = 5
  · rw [if_pos hc] at hj3
    simp only [Option.some.injEq, Prod.mk.injEq] at hj3
    obtain ⟨ha, hb2, hc2⟩ := hj3
    refine ⟨hc.1, hc.2, ha.symm, hb2.symm, hc2.symm, fun k hk1 hk2 hkc => ?_⟩
    have hmk := hjmin k hk1 hk2
    rw [if_pos hkc] at hmk
    exact Option.noConfusion hmk
  · rw [if_neg hc] at hj3
    exact Option.noConfusion hj3

theorem split_575_search_eq_some {t a b c : List Char}
    (h : split_575_search t = some (a, b, c)) :
    ∃ i j, 1 ≤ i ∧ i < j ∧ j < t.length ∧
      a = t.take i ∧ b = (t.drop i).take (j - i) ∧ c = t.drop j ∧
      valid_575 t i j ∧
      ∀ i' j', 1 ≤ i' → i' < j' → j' < t.length → valid_575 t i' j' →
        i < i' ∨ (i = i' ∧ j ≤ j') := by
  unfold split_575_search at h
  obtain ⟨i, hi1, hi2, hgi, hgmin⟩ := py_range_findSome?_eq_some h
  by_cases h5 : count_mora (t.take i) = 5
  · rw [if_pos h5] at hgi
    obtain ⟨j, hj1, hj2, h7, h5c, ha, hb3, hc3, hjmin⟩ := split_575_inner_eq_some hgi
    refine ⟨i, j, hi1, by omega, hj2, ha, hb3, hc3, ⟨h5, h7, h5c⟩,
      fun i' j' hi'1 hij' hj'2 hv => ?_⟩
    rcases Nat.lt_trichotomy i i' with hlt | rfl | hgt
    · exact Or.inl hlt
    · refine Or.inr ⟨rfl, ?_⟩
      by_contra hjj
      push_neg at hjj
      exact hjmin j' (by omega) hjj ⟨hv.2.1, hv.2.2⟩
    · exfalso
      have hg := hgmin i' hi'1 hgt
      rw [if_pos hv.1] at hg
      have hinner := py_range_findSome?_eq_none (f := fun j =>
        if count_mora ((t.drop i').take (j - i')) = 7 ∧ count_mora (t.drop j) = 5 then
          some (t.take i', (t.drop i').take (j - i'), t.drop j)
        else none) hg j' (by omega) hj'2
      have hinner2 : (if count_mora ((t.drop i').take (j' - i')) = 7 ∧
          count_mora (t.drop j') = 5 then
          some (t.take i', (t.drop i').take (j' - i'), t.drop j')
        else none) = none := hinner
      rw [if_pos ⟨hv.2.1, hv.2.2⟩] at hinner2
      exact Option.noConfusion hinner2
  · rw [if_neg h5] at hgi
    exact Option.noConfusion hgi

/-- C3 amended: when split_575 succeeds it returns the three spans of the first
boundary pair (i, j), in order of increasing i then increasing j, whose spans have
mora counts exactly 5, 7, 5; all three spans are non-empty and their concatenation
equals the input with ASCII and ideographic spaces removed (other whitespace, such
as tabs, is kept, so "space-stripped" rather than fully whitespace-stripped). -/
theorem split_575_spec (text a b c : List Char)
    (h : split_575 text = some (a, b, c)) :
    a ≠ [] ∧ b ≠ [] ∧ c ≠ [] ∧
    a ++ b ++ c = strip_spaces text ∧
    count_mora a = 5 ∧ count_mora b = 7 ∧ count_mora c = 5 ∧
    ∃ i j, 1 ≤ i ∧ i < j ∧ j < (strip_spaces text).length ∧
      a = (strip_spaces text).take i ∧
      b = ((strip_spaces text).drop i).take (j - i) ∧
      c = (strip_spaces text).drop j ∧
      ∀ i' j', 1 ≤ i' → i' < j' → j' < (strip_spaces text).length →
        valid_575 (strip_spaces text) i' j' → i < i' ∨ (i = i' ∧ j ≤ j') := by
  unfold split_575 at h
  set t := strip_spaces text with ht
  by_cases h17 : count_mora t ≠ 17
  · rw [if_pos h17] at h
    exact Option.noConfusion h
  · rw [if_neg h17] at h
    obtain ⟨i, j, hi1, hij, hj2, ha, hb2, hc2, hv, hmin⟩ := split_575_search_eq_some h
    have hi2 : i < t.length := by omega
    have htne : t ≠ [] := by
      intro hnil
      rw [hnil] at hi2
      simp at hi2
    refine ⟨?_, ?_, ?_, ?_, ?_, ?_, ?_, i, j, hi1, hij, hj2, ha, hb2, hc2, hmin⟩
    · rw [ha]
      intro hnil
      rcases List.take_eq_nil_iff.mp hnil with h0 | h0
      · omega
      · exact htne h0
    · rw [hb2]
      intro hnil
      rcases List.take_eq_nil_iff.mp hnil with h0 | h0
      · omega
      · have := List.drop_eq_nil_iff.mp h0
        omega
    · rw [hc2]
      intro hnil
      have := List.drop_eq_nil_iff.mp hnil
      omega
    · rw [ha, hb2, hc2]
      rw [List.append_assoc]
      have hdd : (t.drop i).drop (j - i) = t.drop j := by
        rw [List.drop_drop]
        congr 1
        omega
      rw [← hdd, List.take_append_drop, List.take_append_drop]
    · rw [ha]; exact hv.1
    · rw [hb2]; exact hv.2.1
    · rw [hc2]; exact hv.2.2

/-- C3 witness: seventeen identical kana; split_575 succeeds and the spec theorem
yields the 5-7-5 decomposition. -/
theorem split_575_spec_witness :
    ("あああああ".toList) ++ ("あああああああ".toList) ++ ("あああああ".toList) =
      strip_spaces ("あああああああああああああああああ".toList) ∧
    count_mora ("あああああ".toList) = 5 ∧
    count_mora ("あああああああ".toList) = 7 ∧
    count_mora ("あああああ".toList) = 5 :=
  have h := split_575_spec ("あああああああああああああああああ".toList)
    ("あああああ".toList) ("あああああああ".toList) ("あああああ".toList) (by decide)
  ⟨h.2.2.2.1, h.2.2.2.2.1, h.2.2.2.2.2.1, h.2.2.2.2.2.2.1⟩

/-- C3 counterexample: seventeen tab characters. split_575 succeeds (tabs are not
stripped and count one mora each), but the concatenation of the three returned
spans is the seventeen tabs, not the whitespace-stripped input, which is empty. -/
theorem split_575_roundtrip_counterexample :
    split_575 (List.replicate 17 '\t') =
      some (List.replicate 5 '\t', List.replicate 7 '\t', List.replicate 5 '\t') ∧
    List.replicate 5 '\t' ++ List.replicate 7 '\t' ++ List.replicate 5 '\t' ≠
      strip_all_ws (List.replicate 17 '\t') := by decide

theorem has_kireji_iff (text : List Char) :
    has_kireji text = true ↔
      ∃ k ∈ kireji, k.isSuffixOf text = true ∨ contains_sub (k ++ ['　']) text = true ∨
        contains_sub (k ++ [' ']) text = true := by
  unfold has_kireji
  rw [List.any_eq_true]
  constructor
  · rintro ⟨k, hk, hko⟩
    rcases Bool.or_eq_true_iff.mp hko with h | h
    · rcases Bool.or_eq_true_iff.mp h with h2 | h2
      · exact ⟨k, hk, Or.inl h2⟩
      · exact ⟨k, hk, Or.inr (Or.inl h2)⟩
    · exact ⟨k, hk, Or.inr (Or.inr h)⟩
  · rintro ⟨k, hk, h | h | h⟩
    · exact ⟨k, hk, Bool.or_eq_true_iff.mpr (Or.inl (Bool.or_eq_true_iff.mpr (Or.inl h)))⟩
    · exact ⟨k, hk, Bool.or_eq_true_iff.mpr (Or.inl (Bool.or_eq_true_iff.mpr (Or.inr h)))⟩
    · exact ⟨k, hk, Bool.or_eq_true_iff.mpr (Or.inr h)⟩

theorem has_kigo_iff (text : List Char) :
    has_kigo text = true ↔ ∃ p ∈ kigo, ∃ w ∈ p.2, contains_sub w text = true := by
  unfold has_kigo
  rw [List.any_eq_true]
  constructor
  · rintro ⟨p, hp, hw⟩
    obtain ⟨w, hw1, hw2⟩ := List.any_eq_true.mp hw
    exact ⟨p, hp, w, hw1, hw2⟩
  · rintro ⟨p, hp, w, hw1, hw2⟩
    exact ⟨p, hp, List.any_eq_true.mpr ⟨w, hw1, hw2⟩⟩

/-- C4 amended: is_haiku_structure accepts iff the count is in [15, 19], no
exclusion pattern matches, and one of: splitting on whitespace yields exactly 3
parts (parts may be empty); the text ends with a cutting particle or contains a
cutting particle immediately followed by an ideographic or ASCII space; the text
contains a seasonal word; the terminal-inflection pattern [きくしすむる]$ matches
(at the end, or before a single trailing newline); or the count is exactly 17. -/
theorem is_haiku_structure_iff (text : List Char) (mora_count : ℤ) :
    is_haiku_structure text mora_count = true ↔
      (15 ≤ mora_count ∧ mora_count ≤ 19) ∧ matches_exclusion text = false ∧
      ((re_split_ws text).length = 3 ∨
       (∃ k ∈ kireji, k.isSuffixOf text = true ∨ contains_sub (k ++ ['　']) text = true ∨
         contains_sub (k ++ [' ']) text = true) ∨
       (∃ p ∈ kigo, ∃ w ∈ p.2, contains_sub w text = true) ∨
       ends_terminal text = true ∨ mora_count = 17) := by
  have hb : is_haiku_structure text mora_count =
      (decide (15 ≤ mora_count ∧ mora_count ≤ 19) && !matches_exclusion text &&
       (decide ((re_split_ws text).length = 3) || has_kireji text || has_kigo text ||
        ends_terminal text || decide (mora_count = 17))) := by
    unfold is_haiku_structure
    split_ifs with h1 h2 h3 h4 h5 <;> simp_all
  rw [hb]
  simp only [Bool.and_eq_true, Bool.or_eq_true, decide_eq_true_iff,
    Bool.not_eq_true', has_kireji_iff, has_kigo_iff, or_assoc, and_assoc]

/-- C4 witness: a 17-count text ending in the cutting particle や is accepted. -/
theorem is_haiku_structure_iff_witness :
    is_haiku_structure ("月や".toList) 17 = true :=
  (is_haiku_structure_iff ("月や".toList) 17).mpr (by decide)

/-- C4 counterexample: the text あ-space-space-い with count 15. re.split yields
three parts of which one is empty, so the code accepts, while the claim (three
NON-EMPTY parts, no other signal present) rejects. -/
theorem is_haiku_structure_counterexample :
    is_haiku_structure ("あ  い".toList) 15 = true ∧
      c4_claim_rhs ("あ  い".toList) 15 = false := by decide

/-- C7 amended: confidence equals min(0.5 + b1 + b2 + b3, 1.0) with b1 = 0.3 for
exactly 17 mora else 0.1 within [16, 18] else 0, b2 = 0.1 for a final cutting
particle, b3 = 0.1 for a detected season (mutually exclusive b1 branches); the
result is never below 0.5; and for text ending in a cutting particle and containing
a seasonal word, confidence at 17 mora is 1.0 (the sum reaches the cap) and at
16 mora is 0.8, so the former exceeds the latter. The claim's parenthetical values
0.9 and 0.7 omit one of the two 0.1 bonuses. -/
theorem calculate_confidence_spec (text : List Char) (mora_count : ℤ) :
    calculate_confidence text mora_count =
      min ((1 : ℚ) / 2 +
        (if mora_count = 17 then (3 : ℚ) / 10
         else if 16 ≤ mora_count ∧ mora_count ≤ 18 then (1 : ℚ) / 10 else 0) +
        (if ends_with_kireji text then (1 : ℚ) / 10 else 0) +
        (if (detect_season text).isSome then (1 : ℚ) / 10 else 0)) 1 ∧
    (1 : ℚ) / 2 ≤ calculate_confidence text mora_count ∧
    (ends_with_kireji text = true → (detect_season text).isSome = true →
      calculate_confidence text 17 = 1 ∧ calculate_confidence text 16 = 4 / 5 ∧
      calculate_confidence text 16 < calculate_confidence text 17) := by
  refine ⟨?_, ?_, fun hk hs => ⟨?_, ?_, ?_⟩⟩
  · unfold calculate_confidence
    split_ifs <;> ring_nf
  · unfold calculate_confidence
    apply le_min
    · split_ifs <;> norm_num
    · norm_num
  · simp [calculate_confidence, hk, hs]
    norm_num [min_def]
  · simp [calculate_confidence, hk, hs]
    norm_num [min_def]
  · simp [calculate_confidence, hk, hs]
    norm_num [min_def]

/-- C7 witness: the text 月や ends with the particle や and contains the autumn
word 月. -/
theorem calculate_confidence_spec_witness :
    calculate_confidence ("月や".toList) 17 = 1 ∧
      calculate_confidence ("月や".toList) 16 < calculate_confidence ("月や".toList) 17 :=
  have h := (calculate_confidence_spec ("月や".toList) 17).2.2 (by decide) (by decide)
  ⟨h.1, h.2.2⟩

/-- C7 counterexample: for 月や (final cutting particle, autumn word) at 17 mora,
confidence is 1.0, not the 0.9 stated by the claim. -/
theorem calculate_confidence_counterexample :
    calculate_confidence ("月や".toList) 17 ≠ 9 / 10 := by
  have h1 : ends_with_kireji ['月', 'や'] = true := by decide
  have h2 : (detect_season ['月', 'や']).isSome = true := by decide
  simp [calculate_confidence, h1, h2]
  norm_num [min_def]

theorem try_match_eq_some {l k r rest : List Char}
    (h : try_match l = some (k, r, rest)) :
    l = k ++ '《' :: (r ++ '》' :: rest) ∧ k ≠ [] ∧ r ≠ [] ∧
      (∀ x ∈ k, is_cjk x = true) ∧ (∀ x ∈ r, is_hira x = true) := by
  simp only [try_match] at h
  split at h
  · next rest1 heq1 =>
    split at h
    · next rest2 heq2 =>
      by_cases he : ((l.takeWhile is_cjk).isEmpty || (rest1.takeWhile is_hira).isEmpty) = true
      · rw [if_pos he] at h
        exact Option.noConfusion h
      · rw [if_neg he] at h
        simp only [Option.some.injEq, Prod.mk.injEq] at h
        obtain ⟨hk, hr, hrest⟩ := h
        subst hk hr hrest
        have hor : (l.takeWhile is_cjk).isEmpty = false ∧
            (rest1.takeWhile is_hira).isEmpty = false := by
          rcases Bool.eq_false_iff.mpr he |> Bool.or_eq_false_iff.mp with ⟨h1, h2⟩
          exact ⟨h1, h2⟩
        refine ⟨?_, List.isEmpty_eq_false.mp hor.1, List.isEmpty_eq_false.mp hor.2,
          fun x hx => List.mem_takeWhile_imp hx, fun x hx => List.mem_takeWhile_imp hx⟩
        have hl : l = l.takeWhile is_cjk ++ l.dropWhile is_cjk :=
          (List.takeWhile_append_dropWhile is_cjk l).symm
        have hr1 : rest1 = rest1.takeWhile is_hira ++ rest1.dropWhile is_hira :=
          (List.takeWhile_append_dropWhile is_hira rest1).symm
        conv_lhs => rw [hl, heq1, hr1, heq2]
    · next hne =>
      exact Option.noConfusion h
  · next hne =>
    exact Option.noConfusion h

theorem cjk_hira_disjoint {c : Char} (h1 : is_cjk c = true) (h2 : is_hira c = true) :
    False := by
  unfold is_cjk at h1
  unfold is_hira at h2
  rw [decide_eq_true_iff] at h1 h2
  omega

theorem reconstruct_full_append (s1 s2 : List (List Char × List Char)) :
    reconstruct_full (s1 ++ s2) = reconstruct_full s1 ++ reconstruct_full s2 := by
  unfold reconstruct_full
  rw [List.map_append, List.flatten_append]

theorem reconstruct_full_flush (p : List Char) :
    reconstruct_full (flush_pending p) = p := by
  unfold flush_pending
  by_cases hp : p.isEmpty = true
  · rw [if_pos hp]
    rw [List.isEmpty_iff.mp hp]
    rfl
  · rw [if_neg hp]
    simp [reconstruct_full, span_markup]

theorem extract_aux_reconstruct :
    ∀ (fuel : ℕ) (pending l : List Char), l.length ≤ fuel →
      reconstruct_full (extract_aux fuel pending l) = pending ++ l := by
  intro fuel
  induction fuel with
  | zero =>
    intro pending l hl
    have : l = [] := List.length_eq_zero.mp (Nat.le_zero.mp hl)
    subst this
    rw [extract_aux, reconstruct_full_flush, List.append_nil]
  | succ fuel ih =>
    intro pending l hl
    cases l with
    | nil => rw [extract_aux, reconstruct_full_flush, List.append_nil]
    | cons c rest =>
      rw [extract_aux]
      cases htm : try_match (c :: rest) with
      | some tri =>
        obtain ⟨k, r, rest2⟩ := tri
        obtain ⟨hshape, hkne, hrne, hkall, hrall⟩ := try_match_eq_some htm
        have hkr : k ≠ r := by
          intro hkr
          cases k with
          | nil => exact hkne rfl
          | cons x xs =>
            cases r with
            | nil => exact hrne rfl
            | cons y ys =>
              have hx := hkall x (List.mem_cons_self _ _)
              have hy := hrall y (List.mem_cons_self _ _)
              injection hkr with hxy hxs
              rw [hxy] at hx
              exact cjk_hira_disjoint hx hy
        have hlen2 : rest2.length ≤ fuel := by
          have hlen0 := congrArg List.length hshape
          simp only [List.length_cons, List.length_append] at hlen0
          have hkpos : 1 ≤ k.length := by
            cases k with
            | nil => exact absurd rfl hkne
            | cons _ _ => simp
          have hrpos : 1 ≤ r.length := by
            cases r with
            | nil => exact absurd rfl hrne
            | cons _ _ => simp
          simp only [List.length_cons] at hl
          omega
        rw [reconstruct_full_append, reconstruct_full_flush]
        have : reconstruct_full ((k, r) :: extract_aux fuel [] rest2) =
            span_markup (k, r) ++ reconstruct_full (extract_aux fuel [] rest2) := by
          unfold reconstruct_full
          rw [List.map_cons, List.flatten_cons]
        rw [this, ih [] rest2 hlen2, List.nil_append]
        rw [hshape]
        unfold span_markup
        rw [if_neg hkr]
        simp
      | none =>
        have hlen2 : rest.length ≤ fuel := by
          simp at hl
          omega
        rw [ih (pending ++ [c]) rest hlen2]
        simp

theorem extract_aux_no_match :
    ∀ (fuel : ℕ) (pending l : List Char), l.length ≤ fuel → has_ruby_match l = false →
      extract_aux fuel pending l = flush_pending (pending ++ l) := by
  intro fuel
  induction fuel with
  | zero =>
    intro pending l hl hm
    have : l = [] := List.length_eq_zero.mp (Nat.le_zero.mp hl)
    subst this
    rw [extract_aux, List.append_nil]
  | succ fuel ih =>
    intro pending l hl hm
    cases l with
    | nil => rw [extract_aux, List.append_nil]
    | cons c rest =>
      unfold has_ruby_match at hm
      rw [List.tails_cons, List.any_cons] at hm
      rcases Bool.or_eq_false_iff.mp hm with ⟨hm1, hm2⟩
      have htm : try_match (c :: rest) = none := by
        cases htm : try_match (c :: rest) with
        | none => rfl
        | some tri => rw [htm] at hm1; exact Bool.noConfusion hm1
      rw [extract_aux, htm]
      have hlen2 : rest.length ≤ fuel := by
        simp only [List.length_cons] at hl
        omega
      rw [ih (pending ++ [c]) rest hlen2 hm2]
      simp

/-- C6 amended: concatenating the surfaces of the spans returned by
extract_text_with_ruby, with the bracket delimiters and the reading of each
annotated span re-inserted, reconstructs the input exactly (equivalently, the
surfaces are the input minus the delimiters and the consumed readings); and every
NON-EMPTY input containing no ruby match yields the single unannotated span
(input, input). The empty input instead yields zero spans. -/
theorem extract_text_with_ruby_spec (text : List Char) :
    reconstruct_full (extract_text_with_ruby text) = text ∧
    (has_ruby_match text = false → text ≠ [] →
      extract_text_with_ruby text = [(text, text)]) := by
  constructor
  · exact extract_aux_reconstruct text.length [] text (Nat.le_refl _)
  · intro hm hne
    unfold extract_text_with_ruby
    rw [extract_aux_no_match text.length [] text (Nat.le_refl _) hm]
    unfold flush_pending
    rw [List.nil_append, if_neg]
    rw [Bool.not_eq_true, List.isEmpty_eq_false]
    exact hne

/-- C6 witness: a line with one annotation reconstructs, and a non-empty line with
no annotation is a single unannotated span. -/
theorem extract_text_with_ruby_spec_witness :
    reconstruct_full (extract_text_with_ruby ("山《やま》の月".toList)) =
      ("山《やま》の月".toList) ∧
    extract_text_with_ruby ("かき".toList) = [(("かき".toList), ("かき".toList))] :=
  ⟨(extract_text_with_ruby_spec ("山《やま》の月".toList)).1,
   (extract_text_with_ruby_spec ("かき".toList)).2 (by decide) (by decide)⟩

/-- C6 counterexample: the empty input contains no ruby match, yet the result is
the empty span sequence, not a single whole-input span. -/
theorem extract_empty_counterexample :
    has_ruby_match [] = false ∧ extract_text_with_ruby [] ≠ [([], [])] := by decide

/-- C10: for the empty string, extract_text_with_ruby returns the empty span
sequence (no span at all, rather than a single empty span). -/
theorem extract_text_with_ruby_empty :
    extract_text_with_ruby [] = [] := by decide

theorem count_mora_kana_single {c : Char} (h : is_kana_range c = true) :
    count_mora_kana [c] = 1 := by
  unfold count_mora_kana count_mora_kana_go
  simp only [Bool.false_eq_true, and_false, if_false]
  split_ifs <;> simp_all

theorem unannotated_fold (l : List Char) :
    ∀ acc : ℕ, l.foldl (fun a c =>
      if is_kana_range c then a + count_mora_kana [c]
      else if is_cjk c then a + 2 else a) acc =
      acc + (l.map char_mora_estimate).sum := by
  induction l with
  | nil => intro acc; simp
  | cons c rest ih =>
    intro acc
    rw [List.foldl_cons, List.map_cons, List.sum_cons]
    by_cases h1 : is_kana_range c = true
    · rw [if_pos h1, ih, count_mora_kana_single h1]
      unfold char_mora_estimate
      rw [if_pos h1]
      omega
    · rw [if_neg h1]
      by_cases h2 : is_cjk c = true
      · rw [if_pos h2, ih]
        unfold char_mora_estimate
        rw [if_neg h1, if_pos h2]
        omega
      · rw [if_neg h2, ih]
        unfold char_mora_estimate
        rw [if_neg h1, if_neg h2]
        omega

/-- C1 amended: count_mora_with_ruby is the sum of per-span contributions; an
annotated span contributes the positional kana-mora rule applied to its cleaned
reading, while an unannotated span contributes per single character: 1 per
kana-range character (the per-character application of _count_mora_kana makes a
small vowel count 1, never 0, since it is always at position 0 of its own call),
2 per CJK ideograph, and 0 for everything else, including the long-vowel mark ー,
which falls outside the kana filter [ぁ-んァ-ン]. -/
theorem count_mora_with_ruby_eq_sum (pairs : List (List Char × List Char)) :
    count_mora_with_ruby pairs =
      (pairs.map (fun p =>
        if p.1 ≠ p.2 then count_mora_kana (clean_reading p.2)
        else ((clean_reading p.1).map char_mora_estimate).sum)).sum := by
  have haux : ∀ (ps : List (List Char × List Char)) (acc : ℕ),
      ps.foldl (fun acc p =>
        if p.1 ≠ p.2 then acc + count_mora_kana (clean_reading p.2)
        else (clean_reading p.1).foldl (fun a c =>
          if is_kana_range c then a + count_mora_kana [c]
          else if is_cjk c then a + 2 else a) acc) acc =
      acc + (ps.map (fun p =>
        if p.1 ≠ p.2 then count_mora_kana (clean_reading p.2)
        else ((clean_reading p.1).map char_mora_estimate).sum)).sum := by
    intro ps
    induction ps with
    | nil => intro acc; simp
    | cons p rest ih =>
      intro acc
      rw [List.foldl_cons, List.map_cons, List.sum_cons]
      by_cases hp : p.1 ≠ p.2
      · rw [if_pos hp, if_pos hp, ih]
        omega
      · rw [if_neg hp, if_neg hp, unannotated_fold, ih]
        omega
  unfold count_mora_with_ruby
  rw [haux]
  omega

/-- C1 counterexample: the unannotated pure-kana span きゃ. The code counts each
character separately (き 1, ゃ 1, total 2), while the claim's positional kana-mora
rule over the span's kana characters folds the small vowel and yields 1. -/
theorem count_mora_with_ruby_counterexample :
    count_mora_with_ruby [(("きゃ".toList), ("きゃ".toList))] = 2 ∧
      c1_claim_contribution ("きゃ".toList) = 1 := by decide
